import Mathlib

/-!
Verification of `Direct_Root_Leaf_Script.py` (Zoom-Privacy-Data-Cleaned).

The script turns a YAML graph document into a table of rows
`(data_type, collector, purpose, text)`.  This file gives a shallow
embedding of its core functions and proves/refutes the specified
properties.

Modelling notes, all taken from the Python source:

* A Python `dict` with insertion order is an association list with
  pairwise-distinct keys; `purposes` is `List (String × List String)`.
* `get_all_paths_with_purposes` threads ONE mutable
  `defaultdict(list)` (`purposes_accumulated`) through the whole
  recursion: only `path` is copied (`path + [start]`), the accumulator
  is shared across sibling branches.  The snapshot
  `dict(purposes_accumulated)` taken when a path is recorded copies the
  dict but shares the inner list objects, which the search keeps
  mutating in place.  Hence a recorded result is faithfully represented
  by the pair (path, keys present at snapshot time); its caller-visible
  mapping sends each snapshot key to that key's FINAL accumulated list.
  `DfsState` carries the shared accumulator and the recorded snapshots,
  and `materialize` rebuilds the caller-visible mappings at the end.
* In Python the recursion has no fuel; here `dfsAux` takes a fuel
  argument and the entry points run it at `pyFuel`, a bound proved
  sufficient (the fuel-stabilisation theorem for claim C7 shows any
  larger fuel gives the same outcome, i.e. the Python recursion
  terminates).
* `get_all_paths_with_purposes(adj, n, n)` executes `return` (with no
  value) after recording the trivial path, so the caller receives
  `None`; the embedding returns `Option`, with `none` standing for
  Python's `None`.
* Exceptions (`KeyError` from `link['source']`, `AttributeError` from
  `link.get` on a non-mapping, `TypeError` from iterating `None`) are
  `Except PyErr`; the public entry point catches everything and
  degrades to the empty table, mirroring the `except` clauses.
* The parsed document is modelled at the granularity the script
  inspects: parse failure, not a mapping, mapping without `links`,
  `links` not a sequence, or a list of link values each of which is a
  mapping (with optional `source`/`target`/`purposes`/`text` keys,
  string-shaped as in the data) or some non-mapping value.
* `pandas.sort_values(['data_type','collector'])` followed by
  `drop_duplicates()` is a sort by the (data_type, collector) key
  followed by removal of rows equal in all four fields; ties in the
  key are ordered by a stable insertion sort here (pandas' quicksort
  leaves tie order unspecified; every property proved below is
  insensitive to tie order).
-/

namespace ZoomScript

/-- Ordered mapping from purpose-category name to its list of purpose
strings: a Python `dict[str, list[str]]` with insertion order. -/
abbrev Purposes := List (String × List String)

/-- An element of the `links` sequence that is a YAML mapping; each of
the four fields the script reads may be absent. -/
structure LinkRec where
  source? : Option String
  target? : Option String
  purposes? : Option Purposes
  text? : Option (List String)
deriving DecidableEq, Repr

/-- An element of the `links` sequence: a mapping, or any non-mapping
value (on which `link.get` raises `AttributeError`). -/
inductive LinkVal where
  | recv (r : LinkRec)
  | notMap
deriving DecidableEq, Repr

/-- `link.get('source', '')`. -/
def srcD (l : LinkRec) : String := l.source?.getD ""

/-- `link.get('target', '')`. -/
def tgtD (l : LinkRec) : String := l.target?.getD ""

/-- Adjacency structure: ordered mapping from source node to its list
of (target, purposes) pairs, as built by `build_adjacency_list`. -/
abbrev Adj := List (String × List (String × Purposes))

/-- `adj_list.get(start, [])` on the defaultdict-backed mapping. -/
def adjLookup (adj : Adj) (s : String) : List (String × Purposes) :=
  match adj.find? (fun p => p.1 = s) with
  | some p => p.2
  | none => []

/-- `adj_list[source].append((target, purposes))` on the defaultdict:
extend the entry for `s` if present, else append a fresh entry. -/
def addEdge (adj : Adj) (s : String) (e : String × Purposes) : Adj :=
  if adj.any (fun p => p.1 = s) then
    adj.map (fun p => if p.1 = s then (p.1, p.2 ++ [e]) else p)
  else adj ++ [(s, [e])]

/-- `build_adjacency_list`: skip links whose source or target is empty
(Python truthiness of the defaulted string), default `purposes` to the
empty mapping. -/
def build_adjacency_list (links : List LinkRec) : Adj :=
  links.foldl
    (fun adj l =>
      if srcD l ≠ "" ∧ tgtD l ≠ "" then addEdge adj (srcD l) (tgtD l, l.purposes?.getD [])
      else adj)
    []

/-- `find_leaf_nodes`: `set(targets) - set(sources)`, where each value
is `link.get(...)` with default `''`.  The Python set is represented as
a duplicate-free list; only membership is meaningful. -/
def find_leaf_nodes (links : List LinkRec) : List String :=
  ((links.map tgtD).dedup).filter (fun t => t ∉ links.map srcD)

/-- `find_root_nodes`: `set(sources) - set(targets)`. -/
def find_root_nodes (links : List LinkRec) : List String :=
  ((links.map srcD).dedup).filter (fun s => s ∉ links.map tgtD)

/-- `extract_purposes`: empty dict gives `""`, else the comma-space
join of the keys. -/
def extract_purposes (purposes : Purposes) : String :=
  if purposes = [] then "" else ", ".intercalate (purposes.map Prod.fst)

/-- `purposes_accumulated[category].extend(purposes[category])` on the
defaultdict: extend the category's list if the key exists, else insert
the key at the end (the defaultdict creates it on first access). -/
def extendKey (acc : Purposes) (c : String) (vs : List String) : Purposes :=
  if acc.any (fun p => p.1 = c) then
    acc.map (fun p => if p.1 = c then (p.1, p.2 ++ vs) else p)
  else acc ++ [(c, vs)]

/-- The `for category in purposes.keys()` accumulation loop of
`get_all_paths_with_purposes` for one traversed edge. -/
def accumulate (acc : Purposes) (ps : Purposes) : Purposes :=
  ps.foldl (fun a p => extendKey a p.1 p.2) acc

/-- The mutable state of one `get_all_paths_with_purposes` invocation:
the shared accumulator `purposes_accumulated` and, for each entry of
`all_paths`, the recorded path together with the accumulator's key
list at snapshot time (see the modelling notes). -/
structure DfsState where
  acc : Purposes
  results : List (List String × List String)
deriving DecidableEq, Repr

/-- Starting state: empty accumulator, no recorded paths. -/
def dfsInit : DfsState := ⟨[], []⟩

/-- The `for next_node, purposes in adj_list.get(start, [])` loop:
skip targets already on the path, otherwise accumulate the edge's
purposes into the shared accumulator and recurse (`recCall` is the
recursive call with one unit of fuel spent). -/
def dfsEdges (recCall : String → List String → DfsState → Option DfsState)
    (path' : List String) :
    List (String × Purposes) → DfsState → Option DfsState
  | [], st => some st
  | (next, ps) :: rest, st =>
    if next ∈ path' then dfsEdges recCall path' rest st
    else
      match recCall next path' { st with acc := accumulate st.acc ps } with
      | none => none
      | some st2 => dfsEdges recCall path' rest st2

/-- Fuel-indexed body of `get_all_paths_with_purposes`: extend the
path by `start`; if the goal is reached, record the path with a
snapshot of the accumulator's keys and stop (the Python `return`);
otherwise run the edge loop.  `none` means the fuel ran out (the
stabilisation theorem shows `pyFuel` never does). -/
def dfsAux (adj : Adj) (goal : String) :
    Nat → String → List String → DfsState → Option DfsState
  | 0, _, _, _ => none
  | fuel + 1, start, path, st =>
    let path' := path ++ [start]
    if start = goal then
      some { st with results := st.results ++ [(path', st.acc.map Prod.fst)] }
    else
      dfsEdges (fun n p s => dfsAux adj goal fuel n p s) path' (adjLookup adj start) st

/-- All targets occurring in the adjacency structure; every node the
recursion can move to is among them. -/
def targetsOf (adj : Adj) : List String :=
  adj.flatMap (fun p => p.2.map Prod.fst)

/-- Fuel sufficient for the search: one more than the number of target
occurrences. -/
def pyFuel (adj : Adj) : Nat := (targetsOf adj).length + 1

/-- The complete mutation run of one `get_all_paths_with_purposes`
call: final accumulator and recorded snapshots. -/
def getAllPathsRun (adj : Adj) (start goal : String) : DfsState :=
  (dfsAux adj goal (pyFuel adj) start [] dfsInit).getD dfsInit

/-- Value of key `k` in the accumulator (first matching entry; keys
are pairwise distinct throughout). -/
def lookupD (m : Purposes) (k : String) : List String :=
  match m.find? (fun p => p.1 = k) with
  | some p => p.2
  | none => []

/-- Caller-visible mapping of one recorded path: each snapshot key is
bound to its final accumulated list (the snapshot shares the list
objects the search keeps extending). -/
def materialize (final : Purposes) (ks : List String) : Purposes :=
  ks.map (fun k => (k, lookupD final k))

/-- `get_all_paths_with_purposes(adj, start, goal)` as the caller sees
it: `none` is Python's `None` (the early `return` when
`start == goal`); otherwise the recorded paths with their
materialized mappings. -/
def get_all_paths_with_purposes (adj : Adj) (start goal : String) :
    Option (List (List String × Purposes)) :=
  if start = goal then none
  else
    let st := getAllPathsRun adj start goal
    some (st.results.map (fun r => (r.1, materialize st.acc r.2)))

/-- Python exceptions the script can raise inside its `try` block. -/
inductive PyErr where
  | keyError
  | attributeError
  | typeError
deriving DecidableEq, Repr

/-- One output row of the table (the four DataFrame columns). -/
structure Row where
  data_type : String
  collector : String
  purpose : String
  text : String
deriving DecidableEq, Repr

/-- One iteration of the `for link in links` scan for a (root, leaf)
pair: `link['source'] == root and link['target'] == leaf` with
Python's short-circuit (the target key is read only when the source
matched; a missing key raises `KeyError`); on a match, build the row
from the direct edge's text and the path's materialized purposes. -/
def scanLink (root leaf : String) (m : Purposes) (l : LinkRec) :
    Except PyErr (Option Row) :=
  match l.source? with
  | none => .error .keyError
  | some s =>
    if s = root then
      match l.target? with
      | none => .error .keyError
      | some t =>
        if t = leaf then
          .ok (some ⟨leaf, root, extract_purposes m, "\n".intercalate (l.text?.getD [])⟩)
        else .ok none
    else .ok none

/-- The whole `for link in links` scan: collect the matching rows in
order; the first exception aborts everything. -/
def scanLinks (root leaf : String) (m : Purposes) :
    List LinkRec → Except PyErr (List Row)
  | [] => .ok []
  | l :: rest =>
    match scanLink root leaf m l with
    | .error e => .error e
    | .ok none => scanLinks root leaf m rest
    | .ok (some r) =>
      match scanLinks root leaf m rest with
      | .error e => .error e
      | .ok rows => .ok (r :: rows)

/-- The `for path, inherited_purposes in paths_with_purposes` loop:
one link scan per enumerated path. -/
def resultsLoop (links : List LinkRec) (root leaf : String) :
    List (List String × Purposes) → Except PyErr (List Row)
  | [] => .ok []
  | r :: rest =>
    match scanLinks root leaf r.2 links with
    | .error e => .error e
    | .ok rows =>
      match resultsLoop links root leaf rest with
      | .error e => .error e
      | .ok rows2 => .ok (rows ++ rows2)

/-- Rows contributed by one (root, leaf) pair.  If the enumerator
returned Python's `None` (possible only when `root == leaf`), the
`for` statement raises `TypeError`. -/
def rowsForPair (links : List LinkRec) (adj : Adj) (root leaf : String) :
    Except PyErr (List Row) :=
  match get_all_paths_with_purposes adj root leaf with
  | none => .error .typeError
  | some results => resultsLoop links root leaf results

/-- Inner `for leaf in leaf_nodes` loop. -/
def leavesLoop (links : List LinkRec) (adj : Adj) (root : String) :
    List String → Except PyErr (List Row)
  | [] => .ok []
  | leaf :: rest =>
    match rowsForPair links adj root leaf with
    | .error e => .error e
    | .ok rows =>
      match leavesLoop links adj root rest with
      | .error e => .error e
      | .ok rows2 => .ok (rows ++ rows2)

/-- Outer `for root in root_nodes` loop. -/
def rootsLoop (links : List LinkRec) (adj : Adj) (leaves : List String) :
    List String → Except PyErr (List Row)
  | [] => .ok []
  | root :: rest =>
    match leavesLoop links adj root leaves with
    | .error e => .error e
    | .ok rows =>
      match rootsLoop links adj leaves rest with
      | .error e => .error e
      | .ok rows2 => .ok (rows ++ rows2)

/-- Lines 70-89 of the script: build the adjacency list, the boundary
sets, and run the nested row-collection loops. -/
def assembleRows (links : List LinkRec) : Except PyErr (List Row) :=
  rootsLoop links (build_adjacency_list links) (find_leaf_nodes links)
    (find_root_nodes links)

/-- Sort key of `df.sort_values(['data_type', 'collector'])`:
lexicographic on the two columns. -/
def rowLE (a b : Row) : Prop :=
  a.data_type < b.data_type ∨ (a.data_type = b.data_type ∧ a.collector ≤ b.collector)

instance : DecidableRel rowLE := fun a b => by
  unfold rowLE; infer_instance

/-- `df.sort_values(['data_type', 'collector'])`. -/
def sortRows (rows : List Row) : List Row :=
  rows.insertionSort rowLE

/-- Recursion behind `drop_duplicates`: keep the first occurrence of
each row, dropping rows already seen. -/
def dropDupAux (seen : List Row) : List Row → List Row
  | [] => []
  | r :: rest =>
    if r ∈ seen then dropDupAux seen rest
    else r :: dropDupAux (r :: seen) rest

/-- `df.drop_duplicates()`: remove rows equal in all four fields,
keeping first occurrences. -/
def dropDuplicates (rows : List Row) : List Row := dropDupAux [] rows

/-- Lines 91-97: sort and deduplicate, but only when the frame is
non-empty. -/
def postProcess (rows : List Row) : List Row :=
  if rows = [] then [] else dropDuplicates (sortRows rows)

/-- Shape of the parsed YAML document at the granularity the script
inspects it. -/
inductive Doc where
  | notDict
  | dictNoLinks
  | dictLinksNotList
  | dictWithLinks (links : List LinkVal)
deriving DecidableEq, Repr

/-- `yaml.safe_load` failure. -/
inductive ParseErr where
  | yamlError
deriving DecidableEq, Repr

/-- Check that every element of `links` is a mapping, returning the
mapping records; `none` models the `AttributeError` that
`build_adjacency_list` raises (via `link.get`) on the first
non-mapping element, before any rows are produced. -/
def asRecs : List LinkVal → Option (List LinkRec)
  | [] => some []
  | .recv r :: rest => (asRecs rest).map (r :: ·)
  | .notMap :: _ => none

/-- The body of the `try` block for a well-shaped document: either a
raised exception or the collected rows. -/
def processLinks (links : List LinkVal) : Except PyErr (List Row) :=
  match asRecs links with
  | none => .error .attributeError
  | some recs => assembleRows recs

/-- `process_yaml_to_organized_data`: the public entry point.  The
argument is the outcome of `yaml.safe_load`; every failure mode (parse
error, wrong shape, or any exception raised while processing) is
caught and yields the empty table. -/
def process_yaml_to_organized_data (input : Except ParseErr Doc) : List Row :=
  match input with
  | .error _ => []
  | .ok .notDict => []
  | .ok .dictNoLinks => []
  | .ok .dictLinksNotList => []
  | .ok (.dictWithLinks links) =>
    match processLinks links with
    | .error _ => []
    | .ok rows => postProcess rows

/-- Modelled from the spec (§3 Accumulated Purposes): purposes of the
edges lying on one given path only — for each consecutive pair (a, b)
the purposes of the adjacency edge a → b — accumulated in path order.
Used to compare the code's behaviour against the spec's description. -/
def specPathPurposes (adj : Adj) : List String → Purposes → Purposes
  | a :: b :: rest, acc =>
    specPathPurposes adj (b :: rest)
      (accumulate acc
        (match (adjLookup adj a).find? (fun e => e.1 = b) with
         | some e => e.2
         | none => []))
  | _, acc => acc

/-- Adjacency structure with all self-loop edges removed. -/
def removeSelfLoops (adj : Adj) : Adj :=
  adj.map (fun p => (p.1, p.2.filter (fun e => e.1 ≠ p.1)))

/-- C2 counterexample: called with `start == end`, the enumerator
returns Python `None` (modelled as `none`) — not a list containing the
trivial one-node path.  The trivial path is recorded in the internal
`all_paths` accumulator (see the amended theorem), but the early
`return` statement on line 49 returns no value to the caller. -/
theorem c2_counterexample :
    get_all_paths_with_purposes [] "A" "A" = none := rfl

/-- C2 amended: with `start = end = n`, the enumerator records exactly
one result — the trivial path `[n]` with an empty purposes snapshot —
without examining any outgoing edge (the run is the same for every
adjacency mapping), but it returns `None` to the caller instead of the
result list. -/
theorem c2_trivial_path (adj : Adj) (n : String) :
    get_all_paths_with_purposes adj n n = none ∧
    getAllPathsRun adj n n = ⟨[], [([n], [])]⟩ := by
  constructor
  · simp [get_all_paths_with_purposes]
  · simp [getAllPathsRun, pyFuel, dfsAux, dfsInit]

/-- C3 counterexample: for a link carrying only a target, the empty
string (the `link.get('source', '')` default) is a member of the
returned root set — the code does not restrict `sources`/`targets` to
non-empty values as the claim states. -/
theorem c3_counterexample :
    "" ∈ find_root_nodes [⟨none, some "B", none, none⟩] ∧
    find_leaf_nodes [⟨none, some "B", none, none⟩] = ["B"] := by
  constructor
  · decide
  · rfl

/-- C3 amended: the boundary detector computes `sources` and `targets`
from ALL defaulted source/target values — a missing or empty field
contributes the empty string — and returns the set differences, so
membership in roots (resp. leaves) is exactly membership in the
defaulted source (resp. target) values minus the other side; the empty
string is not filtered out. -/
theorem c3_boundary_membership (links : List LinkRec) (x : String) :
    (x ∈ find_root_nodes links ↔ x ∈ links.map srcD ∧ x ∉ links.map tgtD) ∧
    (x ∈ find_leaf_nodes links ↔ x ∈ links.map tgtD ∧ x ∉ links.map srcD) := by
  constructor <;>
    simp [find_root_nodes, find_leaf_nodes, List.mem_filter, List.mem_dedup]

/-- C5: the public entry point catches every failure mode and returns
the empty table: parse errors, a document that is not a mapping, a
mapping without a `links` key, a `links` value that is not a sequence,
and any exception raised while processing a well-shaped document.  (In
the embedding the entry point is total with result type `List Row`, so
no exception escapes by construction; the last conjunct shows every
raised `PyErr` is mapped to the empty table.) -/
theorem c5_failures_give_empty_table :
    (∀ e : ParseErr, process_yaml_to_organized_data (.error e) = []) ∧
    process_yaml_to_organized_data (.ok .notDict) = [] ∧
    process_yaml_to_organized_data (.ok .dictNoLinks) = [] ∧
    process_yaml_to_organized_data (.ok .dictLinksNotList) = [] ∧
    ∀ (links : List LinkVal) (e : PyErr), processLinks links = .error e →
      process_yaml_to_organized_data (.ok (.dictWithLinks links)) = [] := by
  refine ⟨fun e => rfl, rfl, rfl, rfl, fun links e h => ?_⟩
  simp [process_yaml_to_organized_data, h]

/-- C5 witness: a `links` list containing a non-mapping element raises
and the entry point returns the empty table. -/
theorem c5_failures_give_empty_table_witness :
    process_yaml_to_organized_data (.ok (.dictWithLinks [.notMap])) = [] :=
  c5_failures_give_empty_table.2.2.2.2 [.notMap] .attributeError rfl

/-- C8: for the single-edge document A → B with purposes
`{"p1": ["x"]}` and text `["hello"]`, the roots are `{A}`, the leaves
are `{B}`, and the entry point returns exactly one row
`(B, A, "p1", "hello")`. -/
theorem c8_single_edge_pipeline :
    find_root_nodes [⟨some "A", some "B", some [("p1", ["x"])], some ["hello"]⟩] = ["A"] ∧
    find_leaf_nodes [⟨some "A", some "B", some [("p1", ["x"])], some ["hello"]⟩] = ["B"] ∧
    process_yaml_to_organized_data
      (.ok (.dictWithLinks
        [.recv ⟨some "A", some "B", some [("p1", ["x"])], some ["hello"]⟩])) =
      [⟨"B", "A", "p1", "hello"⟩] := by
  refine ⟨rfl, rfl, rfl⟩

/-- C9: the root set and the leaf set are disjoint (they are the two
opposite set differences), so the table assembler — which enumerates
paths only for pairs drawn from these two sets — never calls the path
enumerator with `start = end`, and the enumerator returns an actual
list (not Python `None`) on every such call. -/
theorem c9_roots_leaves_disjoint (links : List LinkRec) (adj : Adj)
    (root leaf : String)
    (hr : root ∈ find_root_nodes links) (hl : leaf ∈ find_leaf_nodes links) :
    root ≠ leaf ∧ (get_all_paths_with_purposes adj root leaf).isSome := by
  have h1 : root ∉ links.map tgtD := by
    have := (List.mem_filter.mp hr).2
    simpa using this
  have h2 : leaf ∈ links.map tgtD := by
    have := (List.mem_filter.mp hl).1
    exact List.mem_dedup.mp this
  have hne : root ≠ leaf := fun h => h1 (h ▸ h2)
  refine ⟨hne, ?_⟩
  simp [get_all_paths_with_purposes, hne]

/-- C9 witness: for the single link A → B, the pair (A, B) is a
root/leaf pair with distinct endpoints and the enumerator returns a
list. -/
theorem c9_roots_leaves_disjoint_witness :
    "A" ≠ "B" ∧
    (get_all_paths_with_purposes
      (build_adjacency_list [⟨some "A", some "B", none, none⟩]) "A" "B").isSome :=
  c9_roots_leaves_disjoint [⟨some "A", some "B", none, none⟩]
    (build_adjacency_list [⟨some "A", some "B", none, none⟩]) "A" "B"
    (by decide) (by decide)

lemma scanLinks_eq (root leaf : String) (m : Purposes) :
    ∀ links : List LinkRec, (∀ l ∈ links, l.source? ≠ none ∧ l.target? ≠ none) →
      scanLinks root leaf m links =
        .ok ((links.filter (fun l => l.source? = some root ∧ l.target? = some leaf)).map
          (fun l => ⟨leaf, root, extract_purposes m, "\n".intercalate (l.text?.getD [])⟩)) := by
  intro links
  induction links with
  | nil => intro _; rfl
  | cons l rest ih =>
    intro h
    obtain ⟨hs, ht⟩ := h l (List.mem_cons_self _ _)
    have ih' := ih (fun l' hl' => h l' (List.mem_cons_of_mem _ hl'))
    obtain ⟨s, hs'⟩ := Option.ne_none_iff_exists'.mp hs
    obtain ⟨t, ht'⟩ := Option.ne_none_iff_exists'.mp ht
    by_cases hsr : s = root
    · subst hsr
      by_cases htl : t = leaf
      · subst htl
        simp [scanLinks, scanLink, hs', ht', ih', List.filter_cons]
      · simp [scanLinks, scanLink, hs', ht', ih', List.filter_cons, htl]
    · simp [scanLinks, scanLink, hs', ht', ih', List.filter_cons, hsr]

/-- C4: for one enumerated (path, accumulated purposes) result, the
`for link in links` scan emits exactly one row per direct root → leaf
edge, in edge-list order: the row's text is that direct edge's text
lines joined with newlines and its purpose is the comma-space join of
the accumulated mapping's category names; in particular rows are
emitted if and only if a direct edge exists, and with no direct edge
the scan contributes nothing even though a path was found.  (The
hypothesis says every link carries both keys, otherwise the scan
raises, which is claim C10's territory.) -/
theorem c4_rows_iff_direct_edge (links : List LinkRec) (root leaf : String) (m : Purposes)
    (h : ∀ l ∈ links, l.source? ≠ none ∧ l.target? ≠ none) :
    scanLinks root leaf m links =
      .ok ((links.filter (fun l => l.source? = some root ∧ l.target? = some leaf)).map
        (fun l => ⟨leaf, root, extract_purposes m, "\n".intercalate (l.text?.getD [])⟩)) ∧
    (scanLinks root leaf m links = .ok [] ↔
      ¬ ∃ l ∈ links, l.source? = some root ∧ l.target? = some leaf) := by
  have key := scanLinks_eq root leaf m links h
  refine ⟨key, ?_⟩
  rw [key]
  simp [List.filter_eq_nil_iff]

/-- C4 witness: a single direct edge A → B produces exactly its row,
and that row is present (the scan result is not the empty list). -/
theorem c4_rows_iff_direct_edge_witness :
    scanLinks "A" "B" [("p1", ["x"])]
        [⟨some "A", some "B", some [("p1", ["x"])], some ["hello"]⟩] =
      .ok [⟨"B", "A", "p1", "hello"⟩] ∧
    ¬ (scanLinks "A" "B" [("p1", ["x"])]
        [⟨some "A", some "B", some [("p1", ["x"])], some ["hello"]⟩] = .ok []) := by
  have h := c4_rows_iff_direct_edge
    [⟨some "A", some "B", some [("p1", ["x"])], some ["hello"]⟩] "A" "B" [("p1", ["x"])]
    (by decide)
  refine ⟨h.1.trans rfl, ?_⟩
  intro hempty
  exact (h.2.mp hempty) ⟨_, List.mem_singleton_self _, rfl, rfl⟩

instance : IsTotal Row rowLE := ⟨fun a b => by
  unfold rowLE
  rcases lt_trichotomy a.data_type b.data_type with h | h | h
  · exact Or.inl (Or.inl h)
  · rcases le_total a.collector b.collector with h2 | h2
    · exact Or.inl (Or.inr ⟨h, h2⟩)
    · exact Or.inr (Or.inr ⟨h.symm, h2⟩)
  · exact Or.inr (Or.inl h)⟩

instance : IsTrans Row rowLE := ⟨fun a b c hab hbc => by
  unfold rowLE at *
  rcases hab with h1 | ⟨h1, h1'⟩ <;> rcases hbc with h2 | ⟨h2, h2'⟩
  · exact Or.inl (h1.trans h2)
  · exact Or.inl (h2 ▸ h1)
  · exact Or.inl (h1 ▸ h2)
  · exact Or.inr ⟨h1.trans h2, h1'.trans h2'⟩⟩

lemma dropDupAux_sublist : ∀ (l seen : List Row), List.Sublist (dropDupAux seen l) l := by
  intro l
  induction l with
  | nil => intro seen; simp [dropDupAux]
  | cons r rest ih =>
    intro seen
    by_cases hr : r ∈ seen
    · simp only [dropDupAux, if_pos hr]
      exact (ih seen).cons r
    · simp only [dropDupAux, if_neg hr]
      exact (ih (r :: seen)).cons₂ r

lemma dropDupAux_nodup : ∀ (l seen : List Row),
    (dropDupAux seen l).Nodup ∧ ∀ r ∈ dropDupAux seen l, r ∉ seen := by
  intro l
  induction l with
  | nil =>
    intro seen
    exact ⟨List.nodup_nil, fun r hr => absurd hr (List.not_mem_nil r)⟩
  | cons x rest ih =>
    intro seen
    by_cases hx : x ∈ seen
    · simp only [dropDupAux, if_pos hx]
      exact ih seen
    · simp only [dropDupAux, if_neg hx]
      obtain ⟨hnd, hmem⟩ := ih (x :: seen)
      constructor
      · exact List.nodup_cons.mpr
          ⟨fun hxx => (hmem x hxx) (List.mem_cons_self _ _), hnd⟩
      · intro r hr
        rcases List.mem_cons.mp hr with rfl | hr'
        · exact hx
        · exact fun hrseen => (hmem r hr') (List.mem_cons_of_mem _ hrseen)

/-- C6: whatever the input document, the table the entry point
returns is sorted ascending by the (data_type, collector) key and
contains no two rows equal in all four fields — duplicate rows from
distinct paths collapse to one. -/
theorem c6_sorted_and_deduplicated (input : Except ParseErr Doc) :
    List.Sorted rowLE (process_yaml_to_organized_data input) ∧
    (process_yaml_to_organized_data input).Nodup := by
  have base : ∀ rows : List Row,
      List.Sorted rowLE (postProcess rows) ∧ (postProcess rows).Nodup := by
    intro rows
    by_cases h : rows = []
    · simp [postProcess, h]
    · simp only [postProcess, if_neg h, dropDuplicates]
      have hs : List.Sorted rowLE (sortRows rows) :=
        List.sorted_insertionSort rowLE rows
      exact ⟨List.Pairwise.sublist (dropDupAux_sublist _ _) hs,
        (dropDupAux_nodup _ _).1⟩
  cases input with
  | error e => simp [process_yaml_to_organized_data]
  | ok doc =>
    cases doc with
    | notDict => simp [process_yaml_to_organized_data]
    | dictNoLinks => simp [process_yaml_to_organized_data]
    | dictLinksNotList => simp [process_yaml_to_organized_data]
    | dictWithLinks links =>
      cases h : processLinks links with
      | error e => simp [process_yaml_to_organized_data, h]
      | ok rows => simpa [process_yaml_to_organized_data, h] using base rows

lemma extendKey_keys (acc : Purposes) (c : String) (vs : List String) :
    (extendKey acc c vs).map Prod.fst =
      if acc.any (fun p => p.1 = c) then acc.map Prod.fst
      else acc.map Prod.fst ++ [c] := by
  unfold extendKey
  by_cases h : acc.any (fun p => p.1 = c)
  · rw [if_pos h, if_pos h, List.map_map]
    apply List.map_congr_left
    intro p _
    by_cases hp : p.1 = c <;> simp [hp]
  · rw [if_neg h, if_neg h, List.map_append]
    rfl

lemma extendKey_keys_nodup (acc : Purposes) (c : String) (vs : List String)
    (h : (acc.map Prod.fst).Nodup) : ((extendKey acc c vs).map Prod.fst).Nodup := by
  rw [extendKey_keys]
  by_cases hc : acc.any (fun p => p.1 = c)
  · simpa [hc] using h
  · rw [if_neg hc]
    have hcnot : c ∉ acc.map Prod.fst := by
      intro hmem
      obtain ⟨p, hp, hpc⟩ := List.mem_map.mp hmem
      exact hc (List.any_eq_true.mpr ⟨p, hp, by simp [hpc]⟩)
    simp [List.nodup_append, h, hcnot]

lemma accumulate_keys_nodup (ps : Purposes) : ∀ acc : Purposes,
    (acc.map Prod.fst).Nodup → ((accumulate acc ps).map Prod.fst).Nodup := by
  induction ps with
  | nil => intro acc h; simpa [accumulate] using h
  | cons p rest ih =>
    intro acc h
    have hstep : accumulate acc (p :: rest) = accumulate (extendKey acc p.1 p.2) rest := rfl
    rw [hstep]
    exact ih _ (extendKey_keys_nodup acc p.1 p.2 h)

lemma specPathPurposes_keys_nodup (adj : Adj) : ∀ (p : List String) (acc : Purposes),
    (acc.map Prod.fst).Nodup → ((specPathPurposes adj p acc).map Prod.fst).Nodup := by
  intro p
  induction p with
  | nil => intro acc h; simpa [specPathPurposes] using h
  | cons a rest ih =>
    intro acc h
    cases rest with
    | nil => simpa [specPathPurposes] using h
    | cons b rest2 =>
      simp only [specPathPurposes]
      exact ih _ (accumulate_keys_nodup _ acc h)

lemma lookupD_cons_ne (p : String × List String) (m : Purposes) (k : String)
    (h : p.1 ≠ k) : lookupD (p :: m) k = lookupD m k := by
  simp [lookupD, List.find?_cons, h]

lemma materialize_self : ∀ m : Purposes, (m.map Prod.fst).Nodup →
    materialize m (m.map Prod.fst) = m := by
  intro m
  induction m with
  | nil => intro _; rfl
  | cons p m' ih =>
    intro h
    rw [List.map_cons, List.nodup_cons] at h
    obtain ⟨hp, hm'⟩ := h
    simp only [List.map_cons, materialize]
    have hhead : lookupD (p :: m') p.1 = p.2 := by
      simp [lookupD, List.find?_cons]
    have htail : (m'.map Prod.fst).map (fun k => (k, lookupD (p :: m') k)) =
        (m'.map Prod.fst).map (fun k => (k, lookupD m' k)) := by
      apply List.map_congr_left
      intro k hk
      have hne : p.1 ≠ k := fun he => hp (he ▸ hk)
      rw [lookupD_cons_ne p m' k hne]
    rw [hhead, htail]
    have := ih hm'
    rw [materialize] at this
    rw [this]

lemma adjLookup_short (adj : Adj) (hdeg : ∀ p ∈ adj, p.2.length ≤ 1) (s : String) :
    adjLookup adj s = [] ∨ ∃ e, adjLookup adj s = [e] := by
  cases hf : adj.find? (fun p => p.1 = s) with
  | none => exact Or.inl (by unfold adjLookup; rw [hf])
  | some p =>
    have hlk : adjLookup adj s = p.2 := by unfold adjLookup; rw [hf]
    have hlen := hdeg p (List.mem_of_find?_eq_some hf)
    cases hp2 : p.2 with
    | nil => exact Or.inl (hlk.trans hp2)
    | cons e rest =>
      cases rest with
      | nil => exact Or.inr ⟨e, hlk.trans hp2⟩
      | cons e2 r2 => rw [hp2] at hlen; simp at hlen

lemma dfs_chain (adj : Adj) (goal : String) (hdeg : ∀ p ∈ adj, p.2.length ≤ 1) :
    ∀ (fuel : Nat) (start : String) (path : List String) (acc : Purposes)
      (res : List (List String × List String)) (st' : DfsState),
      dfsAux adj goal fuel start path ⟨acc, res⟩ = some st' →
      st'.results = res ∨
      ∃ tail, st'.results = res ++ [(path ++ start :: tail, st'.acc.map Prod.fst)] ∧
        st'.acc = specPathPurposes adj (start :: tail) acc := by
  intro fuel
  induction fuel with
  | zero => intro start path acc res st' h; exact absurd h (by simp [dfsAux])
  | succ f ih =>
    intro start path acc res st' h
    simp only [dfsAux] at h
    by_cases hsg : start = goal
    · rw [if_pos hsg] at h
      have h' := Option.some.inj h
      refine Or.inr ⟨[], ?_, ?_⟩
      · rw [← h']
      · rw [← h']
        rfl
    · rw [if_neg hsg] at h
      rcases adjLookup_short adj hdeg start with heq | ⟨⟨next, ps⟩, heq⟩
      · rw [heq] at h
        simp only [dfsEdges] at h
        exact Or.inl (by rw [← Option.some.inj h])
      · rw [heq] at h
        by_cases hm : next ∈ path ++ [start]
        · simp only [dfsEdges, if_pos hm] at h
          exact Or.inl (by rw [← Option.some.inj h])
        · simp only [dfsEdges, if_neg hm] at h
          cases hcall : dfsAux adj goal f next (path ++ [start]) ⟨accumulate acc ps, res⟩ with
          | none => rw [hcall] at h; exact absurd h (by simp)
          | some st2 =>
            rw [hcall] at h
            simp only [dfsEdges] at h
            have hst : st2 = st' := Option.some.inj h
            subst hst
            rcases ih next (path ++ [start]) (accumulate acc ps) res st2 hcall with
              hleft | ⟨tail2, hres, hacc⟩
            · exact Or.inl hleft
            · refine Or.inr ⟨next :: tail2, ?_, ?_⟩
              · rw [hres]
                simp
              · rw [hacc]
                simp only [specPathPurposes, heq, List.find?]
                simp

/-- C1 counterexample: for the adjacency mapping with edges
S → A (purposes `p1: [a]`), S → E (purposes `p2: [b]`), A → E (no
purposes), the enumerator pairs the path `[S, E]` with the mapping
`{p1: [a], p2: [b]}`.  The entry `p1 ↦ [a]` was contributed by the
edge S → A, which lies on the sibling branch `[S, A, E]` explored
first, not on the path `[S, E]`; the purposes of the edges actually
on `[S, E]` are exactly `{p2: [b]}` (second conjunct).  The shared
`purposes_accumulated` dictionary is never copied at branch points. -/
theorem c1_counterexample :
    get_all_paths_with_purposes
        [("S", [("A", [("p1", ["a"])]), ("E", [("p2", ["b"])])]), ("A", [("E", [])])]
        "S" "E" =
      some [(["S", "A", "E"], [("p1", ["a"])]),
            (["S", "E"], [("p1", ["a"]), ("p2", ["b"])])] ∧
    specPathPurposes
        [("S", [("A", [("p1", ["a"])]), ("E", [("p2", ["b"])])]), ("A", [("E", [])])]
        ["S", "E"] [] = [("p2", ["b"])] := by
  exact ⟨rfl, rfl⟩

/-- C1 amended: the per-path claim holds only in the absence of
sibling branches.  When every node of the adjacency mapping has at
most one outgoing edge, each result returned by the enumerator pairs
the path with exactly the purposes of the edges on that path,
accumulated in traversal order; with branching, entries accumulated
on sibling branches leak into the shared mapping (counterexample
above). -/
theorem c1_per_path_purposes (adj : Adj) (hdeg : ∀ p ∈ adj, p.2.length ≤ 1)
    (s g : String) (res : List (List String × Purposes))
    (h : get_all_paths_with_purposes adj s g = some res)
    (pm : List String × Purposes) (hpm : pm ∈ res) :
    pm.2 = specPathPurposes adj pm.1 [] := by
  by_cases hsg : s = g
  · rw [get_all_paths_with_purposes, if_pos hsg] at h
    exact absurd h (by simp)
  · rw [get_all_paths_with_purposes, if_neg hsg] at h
    have h' := Option.some.inj h
    rw [getAllPathsRun] at h'
    cases hd : dfsAux adj g (pyFuel adj) s [] dfsInit with
    | none =>
      rw [hd] at h'
      rw [← h'] at hpm
      simp [dfsInit] at hpm
    | some stv =>
      rw [hd] at h'
      rcases dfs_chain adj g hdeg (pyFuel adj) s [] [] [] stv hd with hleft | ⟨tail, hres, hacc⟩
      · rw [← h'] at hpm
        rw [Option.getD_some, hleft] at hpm
        simp at hpm
      · have hnodup : (stv.acc.map Prod.fst).Nodup := by
          rw [hacc]
          exact specPathPurposes_keys_nodup adj (s :: tail) [] (by simp)
        rw [← h'] at hpm
        rw [Option.getD_some, hres] at hpm
        simp only [List.nil_append, List.map_cons, List.map_nil] at hpm
        rw [materialize_self stv.acc hnodup] at hpm
        rcases List.mem_singleton.mp hpm with rfl
        exact hacc

/-- C1 amended witness: a one-edge chain, where the enumerated path's
mapping is exactly that edge's purposes. -/
theorem c1_per_path_purposes_witness :
    ((["A", "B"], [("p1", ["x"])]) : List String × Purposes).2 =
      specPathPurposes [("A", [("B", [("p1", ["x"])])])]
        ((["A", "B"], [("p1", ["x"])]) : List String × Purposes).1 [] :=
  c1_per_path_purposes [("A", [("B", [("p1", ["x"])])])] (by decide)
    "A" "B" [(["A", "B"], [("p1", ["x"])])] rfl
    (["A", "B"], [("p1", ["x"])]) (by decide)

/-- Number of adjacency targets not yet on the path: the measure the
node-repeat exclusion strictly shrinks on every recursive call. -/
def unseenCount (adj : Adj) (p : List String) : Nat :=
  ((targetsOf adj).filter (fun t => t ∉ p)).length

lemma filter_sublist_of_imp {α : Type} (p q : α → Bool) :
    ∀ l : List α, (∀ a ∈ l, p a = true → q a = true) →
      List.Sublist (l.filter p) (l.filter q) := by
  intro l
  induction l with
  | nil => intro _; simp
  | cons a rest ih =>
    intro h
    have ih' := ih (fun a' ha' => h a' (List.mem_cons_of_mem _ ha'))
    by_cases hp : p a = true
    · rw [List.filter_cons_of_pos hp, List.filter_cons_of_pos (h a (List.mem_cons_self _ _) hp)]
      exact ih'.cons₂ a
    · rw [List.filter_cons_of_neg (by simpa using hp)]
      by_cases hq : q a = true
      · rw [List.filter_cons_of_pos hq]
        exact ih'.cons a
      · rw [List.filter_cons_of_neg (by simpa using hq)]
        exact ih'

lemma mem_targetsOf (adj : Adj) (s next : String) (ps : Purposes)
    (h : (next, ps) ∈ adjLookup adj s) : next ∈ targetsOf adj := by
  cases hf : adj.find? (fun p => p.1 = s) with
  | none =>
    have hlk : adjLookup adj s = [] := by unfold adjLookup; rw [hf]
    rw [hlk] at h
    simp at h
  | some p =>
    have hlk : adjLookup adj s = p.2 := by unfold adjLookup; rw [hf]
    rw [hlk] at h
    exact List.mem_flatMap.mpr
      ⟨p, List.mem_of_find?_eq_some hf, List.mem_map.mpr ⟨(next, ps), h, rfl⟩⟩

lemma unseenCount_strict (adj : Adj) (p : List String) (n : String)
    (hmem : n ∈ targetsOf adj) (hnp : n ∉ p) :
    unseenCount adj (p ++ [n]) < unseenCount adj p := by
  unfold unseenCount
  have hsub : List.Sublist ((targetsOf adj).filter (fun t => t ∉ p ++ [n]))
      ((targetsOf adj).filter (fun t => t ∉ p)) := by
    apply filter_sublist_of_imp
    intro a _ ha
    simp only [decide_eq_true_eq] at ha ⊢
    exact fun hc => ha (List.mem_append_left _ hc)
  rcases lt_or_eq_of_le hsub.length_le with hlt | heq2
  · exact hlt
  · exfalso
    have heql := hsub.eq_of_length heq2
    have hn1 : n ∈ (targetsOf adj).filter (fun t => t ∉ p) := by
      rw [List.mem_filter]
      exact ⟨hmem, by simpa using hnp⟩
    rw [← heql] at hn1
    have hn2 := (List.mem_filter.mp hn1).2
    simp at hn2

lemma dfsEdges_congr (r₁ r₂ : String → List String → DfsState → Option DfsState)
    (path' : List String) :
    ∀ (edges : List (String × Purposes)) (st : DfsState),
      (∀ n ps st', (n, ps) ∈ edges → n ∉ path' → r₁ n path' st' = r₂ n path' st') →
      dfsEdges r₁ path' edges st = dfsEdges r₂ path' edges st := by
  intro edges
  induction edges with
  | nil => intro st _; rfl
  | cons e rest ih =>
    intro st h
    obtain ⟨next, ps⟩ := e
    by_cases hm : next ∈ path'
    · simp only [dfsEdges, if_pos hm]
      exact ih st (fun n ps' st' hmem => h n ps' st' (List.mem_cons_of_mem _ hmem))
    · simp only [dfsEdges, if_neg hm]
      rw [h next ps _ (List.mem_cons_self _ _) hm]
      cases hr : r₂ next path' { st with acc := accumulate st.acc ps } with
      | none => rfl
      | some st2 =>
        exact ih st2 (fun n ps' st' hmem => h n ps' st' (List.mem_cons_of_mem _ hmem))

lemma dfsAux_fuel_congr (adj : Adj) (goal : String) :
    ∀ (fuel₁ fuel₂ : Nat) (start : String) (path : List String) (st : DfsState),
      unseenCount adj (path ++ [start]) < fuel₁ →
      unseenCount adj (path ++ [start]) < fuel₂ →
      dfsAux adj goal fuel₁ start path st = dfsAux adj goal fuel₂ start path st := by
  intro fuel₁
  induction fuel₁ with
  | zero => intro fuel₂ start path st h1 _; exact absurd h1 (Nat.not_lt_zero _)
  | succ f ih =>
    intro fuel₂ start path st h1 h2
    cases fuel₂ with
    | zero => exact absurd h2 (Nat.not_lt_zero _)
    | succ f₂ =>
      simp only [dfsAux]
      by_cases hsg : start = goal
      · rw [if_pos hsg, if_pos hsg]
      · rw [if_neg hsg, if_neg hsg]
        apply dfsEdges_congr
        intro n ps st' hmem hnp
        have hstrict := unseenCount_strict adj (path ++ [start]) n
          (mem_targetsOf adj start n ps hmem) hnp
        exact ih f₂ n (path ++ [start]) st' (by omega) (by omega)

lemma dfsEdges_isSome (r : String → List String → DfsState → Option DfsState)
    (path' : List String) :
    ∀ (edges : List (String × Purposes)) (st : DfsState),
      (∀ n ps st', (n, ps) ∈ edges → n ∉ path' → (r n path' st').isSome) →
      (dfsEdges r path' edges st).isSome := by
  intro edges
  induction edges with
  | nil => intro st _; rfl
  | cons e rest ih =>
    intro st h
    obtain ⟨next, ps⟩ := e
    by_cases hm : next ∈ path'
    · simp only [dfsEdges, if_pos hm]
      exact ih st (fun n ps' st' hmem => h n ps' st' (List.mem_cons_of_mem _ hmem))
    · simp only [dfsEdges, if_neg hm]
      have hs := h next ps { st with acc := accumulate st.acc ps } (List.mem_cons_self _ _) hm
      cases hr : r next path' { st with acc := accumulate st.acc ps } with
      | none => rw [hr] at hs; simp at hs
      | some st2 =>
        exact ih st2 (fun n ps' st' hmem => h n ps' st' (List.mem_cons_of_mem _ hmem))

lemma dfsAux_isSome (adj : Adj) (goal : String) :
    ∀ (fuel : Nat) (start : String) (path : List String) (st : DfsState),
      unseenCount adj (path ++ [start]) < fuel →
      (dfsAux adj goal fuel start path st).isSome := by
  intro fuel
  induction fuel with
  | zero => intro start path st h; exact absurd h (Nat.not_lt_zero _)
  | succ f ih =>
    intro start path st h
    simp only [dfsAux]
    by_cases hsg : start = goal
    · rw [if_pos hsg]; rfl
    · rw [if_neg hsg]
      apply dfsEdges_isSome
      intro n ps st' hmem hnp
      have hstrict := unseenCount_strict adj (path ++ [start]) n
        (mem_targetsOf adj start n ps hmem) hnp
      exact ih n (path ++ [start]) st' (by omega)

lemma adjLookup_removeSelfLoops (adj : Adj) (s : String) :
    adjLookup (removeSelfLoops adj) s = (adjLookup adj s).filter (fun e => e.1 ≠ s) := by
  induction adj with
  | nil => rfl
  | cons p rest ih =>
    by_cases hp : p.1 = s
    · have h1 : adjLookup (p :: rest) s = p.2 := by
        unfold adjLookup
        rw [List.find?_cons_of_pos _ (by simp [hp])]
      have h2 : adjLookup (removeSelfLoops (p :: rest)) s =
          p.2.filter (fun e => e.1 ≠ p.1) := by
        unfold adjLookup removeSelfLoops
        rw [List.map_cons, List.find?_cons_of_pos _ (by simp [hp])]
      rw [h1, h2, hp]
    · have h1 : adjLookup (p :: rest) s = adjLookup rest s := by
        unfold adjLookup
        rw [List.find?_cons_of_neg _ (by simp [hp])]
      have h2 : adjLookup (removeSelfLoops (p :: rest)) s =
          adjLookup (removeSelfLoops rest) s := by
        unfold adjLookup removeSelfLoops
        rw [List.map_cons, List.find?_cons_of_neg _ (by simp [hp])]
      rw [h1, h2, ih]

lemma dfsEdges_filter_self (r₁ r₂ : String → List String → DfsState → Option DfsState)
    (start : String) (path' : List String) (hstart : start ∈ path') :
    ∀ (edges : List (String × Purposes)) (st : DfsState),
      (∀ n ps st', (n, ps) ∈ edges → n ∉ path' → r₁ n path' st' = r₂ n path' st') →
      dfsEdges r₁ path' edges st =
        dfsEdges r₂ path' (edges.filter (fun e => e.1 ≠ start)) st := by
  intro edges
  induction edges with
  | nil => intro st _; rfl
  | cons e rest ih =>
    intro st h
    obtain ⟨next, ps⟩ := e
    have hrest := fun st2 => ih st2 (fun n ps' st' hmem => h n ps' st' (List.mem_cons_of_mem _ hmem))
    by_cases hns : next = start
    · subst hns
      rw [List.filter_cons_of_neg (by simp)]
      simp only [dfsEdges, if_pos hstart]
      exact hrest st
    · rw [List.filter_cons_of_pos (by simp [hns])]
      by_cases hm : next ∈ path'
      · simp only [dfsEdges, if_pos hm]
        exact hrest st
      · simp only [dfsEdges, if_neg hm]
        rw [h next ps _ (List.mem_cons_self _ _) hm]
        cases hr : r₂ next path' { st with acc := accumulate st.acc ps } with
        | none => rfl
        | some st2 => exact hrest st2

lemma dfsAux_selfloop (adj : Adj) (goal : String) :
    ∀ (fuel : Nat) (start : String) (path : List String) (st : DfsState),
      dfsAux adj goal fuel start path st =
        dfsAux (removeSelfLoops adj) goal fuel start path st := by
  intro fuel
  induction fuel with
  | zero => intro start path st; rfl
  | succ f ih =>
    intro start path st
    simp only [dfsAux]
    by_cases hsg : start = goal
    · rw [if_pos hsg, if_pos hsg]
    · rw [if_neg hsg, if_neg hsg, adjLookup_removeSelfLoops]
      apply dfsEdges_filter_self
      · simp
      · intro n ps st' hmem hnp
        exact ih n (path ++ [start]) st'

lemma targetsOf_removeSelfLoops (adj : Adj) :
    List.Sublist (targetsOf (removeSelfLoops adj)) (targetsOf adj) := by
  induction adj with
  | nil => simp [targetsOf, removeSelfLoops]
  | cons p rest ih =>
    simp only [targetsOf, removeSelfLoops, List.map_cons, List.flatMap_cons] at ih ⊢
    exact List.Sublist.append (List.Sublist.map _ (List.filter_sublist _)) ih

/-- C7: the recursion terminates because the node-repeat exclusion
strictly shrinks the set of admissible targets: any fuel beyond the
number of adjacency targets produces the same (defined) outcome as the
canonical run — the fuel-free Python recursion reaches a fixed result —
and a self-loop edge is never traversed: removing all self-loop edges
from the adjacency mapping does not change the run at all. -/
theorem c7_termination_and_selfloops (adj : Adj) (goal s : String) (fuel : Nat)
    (h : (targetsOf adj).length < fuel) :
    dfsAux adj goal fuel s [] dfsInit = some (getAllPathsRun adj s goal) ∧
    getAllPathsRun adj s goal = getAllPathsRun (removeSelfLoops adj) s goal := by
  have hus : unseenCount adj ([] ++ [s]) ≤ (targetsOf adj).length := by
    simpa [unseenCount] using List.length_filter_le _ (targetsOf adj)
  have h1 : unseenCount adj ([] ++ [s]) < fuel := lt_of_le_of_lt hus h
  have h2 : unseenCount adj ([] ++ [s]) < pyFuel adj := by
    unfold pyFuel; omega
  obtain ⟨stv, hstv⟩ :=
    Option.isSome_iff_exists.mp (dfsAux_isSome adj goal (pyFuel adj) s [] dfsInit h2)
  have hrun : getAllPathsRun adj s goal = stv := by
    rw [getAllPathsRun, hstv]; rfl
  constructor
  · rw [dfsAux_fuel_congr adj goal fuel (pyFuel adj) s [] dfsInit h1 h2, hstv, hrun]
  · have hsl := dfsAux_selfloop adj goal (pyFuel adj) s [] dfsInit
    have hlen2 : (targetsOf (removeSelfLoops adj)).length ≤ (targetsOf adj).length :=
      (targetsOf_removeSelfLoops adj).length_le
    have hus' : unseenCount (removeSelfLoops adj) ([] ++ [s]) ≤
        (targetsOf (removeSelfLoops adj)).length := by
      simpa [unseenCount] using List.length_filter_le _ (targetsOf (removeSelfLoops adj))
    have hb1 : unseenCount (removeSelfLoops adj) ([] ++ [s]) < pyFuel adj := by
      unfold pyFuel; omega
    have hb2 : unseenCount (removeSelfLoops adj) ([] ++ [s]) <
        pyFuel (removeSelfLoops adj) := by
      unfold pyFuel; omega
    rw [getAllPathsRun, getAllPathsRun, hsl,
      dfsAux_fuel_congr (removeSelfLoops adj) goal (pyFuel adj)
        (pyFuel (removeSelfLoops adj)) s [] dfsInit hb1 hb2]

/-- C7 witness: an adjacency mapping with a self-loop on A; fuel 3
exceeds the two target occurrences, the run stabilises, and removing
the self-loop changes nothing. -/
theorem c7_termination_and_selfloops_witness :
    dfsAux [("A", [("A", []), ("B", [])])] "B" 3 "A" [] dfsInit =
      some (getAllPathsRun [("A", [("A", []), ("B", [])])] "A" "B") ∧
    getAllPathsRun [("A", [("A", []), ("B", [])])] "A" "B" =
      getAllPathsRun (removeSelfLoops [("A", [("A", []), ("B", [])])]) "A" "B" :=
  c7_termination_and_selfloops [("A", [("A", []), ("B", [])])] "B" "A" 3 (by decide)

lemma asRecs_notMap : ∀ links : List LinkVal, LinkVal.notMap ∈ links →
    asRecs links = none := by
  intro links
  induction links with
  | nil => intro h; simp at h
  | cons v rest ih =>
    intro h
    cases v with
    | notMap => rfl
    | recv r =>
      rcases List.mem_cons.mp h with habs | hmem
      · simp at habs
      · simp [asRecs, ih hmem]

lemma scanLinks_error_of_missing_source (root leaf : String) (m : Purposes) :
    ∀ links : List LinkRec, (∃ l ∈ links, l.source? = none) →
      ∃ e, scanLinks root leaf m links = .error e := by
  intro links
  induction links with
  | nil => intro h; simp at h
  | cons l rest ih =>
    intro h
    cases hs : l.source? with
    | none => exact ⟨.keyError, by simp only [scanLinks, scanLink, hs]⟩
    | some s =>
      have hrest : ∃ l' ∈ rest, l'.source? = none := by
        rcases h with ⟨l', hl', hnone⟩
        rcases List.mem_cons.mp hl' with rfl | hmem
        · rw [hs] at hnone; cases hnone
        · exact ⟨l', hmem, hnone⟩
      obtain ⟨e, he⟩ := ih hrest
      cases hsc : scanLink root leaf m l with
      | error e' => exact ⟨e', by simp only [scanLinks, hsc]⟩
      | ok o =>
        cases o with
        | none => exact ⟨e, by simp only [scanLinks, hsc, he]⟩
        | some r => exact ⟨e, by simp only [scanLinks, hsc, he]⟩

lemma resultsLoop_error (links : List LinkRec) (root leaf : String)
    (results : List (List String × Purposes)) (hne : results ≠ [])
    (hsrc : ∃ l ∈ links, l.source? = none) :
    ∃ e, resultsLoop links root leaf results = .error e := by
  cases results with
  | nil => exact absurd rfl hne
  | cons r rest =>
    obtain ⟨e, he⟩ := scanLinks_error_of_missing_source root leaf r.2 links hsrc
    exact ⟨e, by simp only [resultsLoop, he]⟩

lemma rowsForPair_error (links : List LinkRec) (adj : Adj) (root leaf : String)
    (hsrc : ∃ l ∈ links, l.source? = none)
    (hres : (getAllPathsRun adj root leaf).results ≠ []) :
    ∃ e, rowsForPair links adj root leaf = .error e := by
  by_cases hrl : root = leaf
  · exact ⟨.typeError, by simp [rowsForPair, get_all_paths_with_purposes, hrl]⟩
  · have hne : (getAllPathsRun adj root leaf).results.map
        (fun r => (r.1, materialize (getAllPathsRun adj root leaf).acc r.2)) ≠ [] := by
      simpa using hres
    obtain ⟨e, he⟩ := resultsLoop_error links root leaf _ hne hsrc
    refine ⟨e, ?_⟩
    rw [rowsForPair, get_all_paths_with_purposes, if_neg hrl]
    exact he

lemma leavesLoop_error (links : List LinkRec) (adj : Adj) (root : String) :
    ∀ leaves : List String,
      (∃ leaf ∈ leaves, ∃ e, rowsForPair links adj root leaf = .error e) →
      ∃ e, leavesLoop links adj root leaves = .error e := by
  intro leaves
  induction leaves with
  | nil => intro h; simp at h
  | cons lf rest ih =>
    intro h
    cases hrp : rowsForPair links adj root lf with
    | error e => exact ⟨e, by simp only [leavesLoop, hrp]⟩
    | ok rows =>
      have hrest : ∃ leaf ∈ rest, ∃ e, rowsForPair links adj root leaf = .error e := by
        rcases h with ⟨leaf, hmem, e, he⟩
        rcases List.mem_cons.mp hmem with rfl | hmem'
        · rw [hrp] at he; cases he
        · exact ⟨leaf, hmem', e, he⟩
      obtain ⟨e, he⟩ := ih hrest
      exact ⟨e, by simp only [leavesLoop, hrp, he]⟩

lemma rootsLoop_error (links : List LinkRec) (adj : Adj) (leaves : List String) :
    ∀ roots : List String,
      (∃ root ∈ roots, ∃ e, leavesLoop links adj root leaves = .error e) →
      ∃ e, rootsLoop links adj leaves roots = .error e := by
  intro roots
  induction roots with
  | nil => intro h; simp at h
  | cons rt rest ih =>
    intro h
    cases hll : leavesLoop links adj rt leaves with
    | error e => exact ⟨e, by simp only [rootsLoop, hll]⟩
    | ok rows =>
      have hrest : ∃ root ∈ rest, ∃ e, leavesLoop links adj root leaves = .error e := by
        rcases h with ⟨root, hmem, e, he⟩
        rcases List.mem_cons.mp hmem with rfl | hmem'
        · rw [hll] at he; cases he
        · exact ⟨root, hmem', e, he⟩
      obtain ⟨e, he⟩ := ih hrest
      exact ⟨e, by simp only [rootsLoop, hll, he]⟩

/-- C10 counterexample: the second link has a `source` but no
`target` key.  The pair (A, B) is a root/leaf pair that yields a path
(third conjunct), yet the entry point does NOT return an empty table:
it returns the row built from the first link.  Python evaluates
`link['source'] == root and link['target'] == leaf` left to right, so
`link['target']` is read — and `KeyError` raised — only when the bad
link's source equals the scanned root, which never happens here
("X"'s only pair (X, ...) yields no path, so no scan reaches it). -/
theorem c10_counterexample :
    "A" ∈ find_root_nodes
      [⟨some "A", some "B", some [("p1", ["x"])], some ["hello"]⟩,
       ⟨some "X", none, none, none⟩] ∧
    "B" ∈ find_leaf_nodes
      [⟨some "A", some "B", some [("p1", ["x"])], some ["hello"]⟩,
       ⟨some "X", none, none, none⟩] ∧
    (getAllPathsRun
        (build_adjacency_list
          [⟨some "A", some "B", some [("p1", ["x"])], some ["hello"]⟩,
           ⟨some "X", none, none, none⟩]) "A" "B").results ≠ [] ∧
    process_yaml_to_organized_data
        (.ok (.dictWithLinks
          [.recv ⟨some "A", some "B", some [("p1", ["x"])], some ["hello"]⟩,
           .recv ⟨some "X", none, none, none⟩])) =
      [⟨"B", "A", "p1", "hello"⟩] := by
  exact ⟨by decide, by decide, by decide, rfl⟩

/-- C10 amended: the all-rows-discarded behaviour does hold for the
other two bad-link shapes.  If some element of `links` is not a
mapping, the adjacency build raises `AttributeError` and the entry
point returns the empty table unconditionally; if some element lacks
the `source` key and at least one root/leaf pair yields a path, the
direct-edge scan reads `link['source']` of every link, raises
`KeyError`, and the entry point returns the empty table, discarding
every row produced so far.  (An element missing only `target` aborts
the table only when its source equals a scanned root — see the
counterexample.) -/
theorem c10_bad_link_gives_empty_table (links : List LinkVal)
    (h : LinkVal.notMap ∈ links ∨
      ∃ recs, asRecs links = some recs ∧ (∃ l ∈ recs, l.source? = none) ∧
        ∃ root ∈ find_root_nodes recs, ∃ leaf ∈ find_leaf_nodes recs,
          (getAllPathsRun (build_adjacency_list recs) root leaf).results ≠ []) :
    process_yaml_to_organized_data (.ok (.dictWithLinks links)) = [] := by
  rcases h with hnm | ⟨recs, hrecs, hsrc, root, hroot, leaf, hleaf, hres⟩
  · have hnone := asRecs_notMap links hnm
    simp [process_yaml_to_organized_data, processLinks, hnone]
  · obtain ⟨e1, he1⟩ :=
      rowsForPair_error recs (build_adjacency_list recs) root leaf hsrc hres
    obtain ⟨e2, he2⟩ := leavesLoop_error recs (build_adjacency_list recs) root
      (find_leaf_nodes recs) ⟨leaf, hleaf, e1, he1⟩
    obtain ⟨e3, he3⟩ := rootsLoop_error recs (build_adjacency_list recs)
      (find_leaf_nodes recs) (find_root_nodes recs) ⟨root, hroot, e2, he2⟩
    have hass : assembleRows recs = .error e3 := he3
    simp [process_yaml_to_organized_data, processLinks, hrecs, hass]

/-- C10 amended witness: second link lacks the `source` key and the
pair (A, B) yields a path, so the whole table is discarded. -/
theorem c10_bad_link_gives_empty_table_witness :
    process_yaml_to_organized_data
      (.ok (.dictWithLinks
        [.recv ⟨some "A", some "B", some [("p1", ["x"])], some ["hello"]⟩,
         .recv ⟨none, some "C", none, none⟩])) = [] :=
  c10_bad_link_gives_empty_table _
    (Or.inr ⟨[⟨some "A", some "B", some [("p1", ["x"])], some ["hello"]⟩,
              ⟨none, some "C", none, none⟩], rfl,
      ⟨⟨none, some "C", none, none⟩, by decide, rfl⟩,
      "A", by decide, "B", by decide, by decide⟩)

end ZoomScript
